import Mathlib

set_option maxRecDepth 8000

/-!
# Verification of the `ir_viewer` UVC frame pipeline

Shallow embedding of the core of `src/ir_viewer.c`: the UVC bulk frame
reassembler (`read_frame`), the metadata stripper (`strip_meta_header`),
the neighbor-difference classifier (`neighbor_diff`), the size-band,
accumulation and brightness gates of the main loop, the four decode
modes of `render_frame`, and the brightness-floor control.

Packets and frames are byte sequences modelled as `List ℕ` (each element
a byte value).  The bounded C `int`/`long` arithmetic of the program
never overflows in the ranges that occur (packet sizes ≤ 64 KiB, frame
sizes ≤ 1 MiB, byte sums ≤ 255·4000), so `ℕ`/`ℤ` model it exactly; the
only floating-point value, `neighbor_diff`, is modelled over `ℚ` (its
integer numerator and denominator are exactly representable in `double`,
and the claims proved about it — equality with 0 or 255, comparison with
25.0 — are insensitive to the rounding of the final quotient, whose
error is far below the 1/3999 granularity of the exact value).
-/

namespace IrViewer

/-- `MAX_FRAME_SIZE` from `ir_viewer.c` (1 MiB frame ceiling). -/
def MAX_FRAME_SIZE : ℕ := 1024 * 1024

/-- `pkt[0]`: the UVC header-length byte of a packet (`hlen` in `read_frame`). -/
def hlen (pkt : List ℕ) : ℕ := pkt.headI

/-- `pkt[1]`: the UVC bit-field header byte of a packet (`bfh` in `read_frame`). -/
def bfh (pkt : List ℕ) : ℕ := pkt.tail.headI

/-- The header-validity test of `read_frame` (negation of `hlen < 2 || hlen > xferred`):
a packet header is valid when `2 ≤ pkt[0] ≤ packet length`. -/
def validHeader (pkt : List ℕ) : Prop := 2 ≤ hlen pkt ∧ hlen pkt ≤ pkt.length

instance (pkt : List ℕ) : Decidable (validHeader pkt) := by
  unfold validHeader; infer_instance

/-- `bfh & BFH_ERR` (`BFH_ERR = 0x40`). -/
def errBit (pkt : List ℕ) : Bool := (bfh pkt).testBit 6

/-- `bfh & BFH_EOF` (`BFH_EOF = 0x02`). -/
def eofBit (pkt : List ℕ) : Bool := (bfh pkt).testBit 1

/-- `cfid = bfh & BFH_FID` (`BFH_FID = 0x01`). -/
def fidBit (pkt : List ℕ) : ℕ := bfh pkt % 2

/-- The payload of a valid-header packet: the bytes after its header
(`pkt + hlen`, `plen = xferred - hlen` bytes). -/
def payload (pkt : List ℕ) : List ℕ := pkt.drop (hlen pkt)

/-- Result of processing one bulk packet inside `read_frame`'s loop:
either the loop continues with a new accumulation and identity state,
or the frame is sealed and returned. -/
inductive Step where
  | next (acc : List ℕ) (fid : Option ℕ) : Step
  | seal (frame : List ℕ) : Step
deriving DecidableEq, Repr

/-- The bytes held after a step (the accumulation it continues with, or
the sealed frame it returns). -/
def Step.bytes : Step → List ℕ
  | .next acc _ => acc
  | .seal f => f

/-- The identity-flip seal test of `read_frame` (`ir_viewer.c:180`):
`fid >= 0 && cfid != fid && off > 0`. -/
def flipSeal (fid : Option ℕ) (cfid accLen : ℕ) : Bool :=
  match fid with
  | some f => cfid != f && decide (0 < accLen)
  | none => false

/-- One iteration of the body of `read_frame`'s `while` loop
(`ir_viewer.c:163-188`), for a packet `pkt` already fetched, with `acc`
the bytes accumulated so far (`buf[0..off)`) and `fid` the tracked frame
identity (`-1` ↦ `none`).  Mirrors the C control flow:
packets shorter than 2 bytes are skipped; an invalid header causes a raw
copy truncated to the buffer; an error-flagged packet clears the
accumulation and the identity; an identity flip with a nonempty
accumulation seals the old frame; otherwise the payload is appended
(truncated to the buffer) and an end-of-frame bit seals. -/
def read_step (bufsz : ℕ) (pkt acc : List ℕ) (fid : Option ℕ) : Step :=
  if pkt.length < 2 then .next acc fid
  else if hlen pkt < 2 ∨ pkt.length < hlen pkt then
    let n := if acc.length + pkt.length ≤ bufsz then pkt.length else bufsz - acc.length
    .next (acc ++ pkt.take n) fid
  else if errBit pkt then .next [] none
  else if flipSeal fid (fidBit pkt) acc.length then .seal acc
  else
    let plen := pkt.length - hlen pkt
    let n := if acc.length + plen ≤ bufsz then plen else bufsz - acc.length
    let acc2 := if 0 < plen then acc ++ (payload pkt).take n else acc
    if eofBit pkt then .seal acc2 else .next acc2 (some (fidBit pkt))

/-- `read_frame`'s loop over a (finite) stream of bulk packets.  Returns
the frame it would return (`buf[0..off)`) together with the packets left
unread in the stream.  The loop stops when `off ≥ bufsz`, when a frame
is sealed, or when the stream ends (in the C code: `g_running` cleared /
only timeouts left), in which case the current accumulation is returned
as a possibly truncated frame. -/
def readFrameS (bufsz : ℕ) : List (List ℕ) → List ℕ → Option ℕ → List ℕ × List (List ℕ)
  | [], acc, _ => (acc, [])
  | pkt :: rest, acc, fid =>
    if bufsz ≤ acc.length then (acc, pkt :: rest)
    else
      match read_step bufsz pkt acc fid with
      | .next acc2 fid2 => readFrameS bufsz rest acc2 fid2
      | .seal frame => (frame, rest)

/-- One call of `read_frame(d, buf, MAX_FRAME_SIZE)` on a packet stream:
the frame it returns. -/
def read_frame (pkts : List (List ℕ)) : List ℕ :=
  (readFrameS MAX_FRAME_SIZE pkts [] none).1

example : read_frame [[2, 0, 10, 11], [2, 2, 12]] = [10, 11, 12] := by decide

example : read_frame [[2, 0, 10, 11], [2, 1, 12]] = [10, 11] := by decide

lemma readFrameS_cons (bufsz : ℕ) (pkt : List ℕ) (rest : List (List ℕ))
    (acc : List ℕ) (fid : Option ℕ) :
    readFrameS bufsz (pkt :: rest) acc fid =
      if bufsz ≤ acc.length then (acc, pkt :: rest)
      else
        match read_step bufsz pkt acc fid with
        | .next acc2 fid2 => readFrameS bufsz rest acc2 fid2
        | .seal frame => (frame, rest) := rfl

lemma length_payload (pkt : List ℕ) : (payload pkt).length = pkt.length - hlen pkt := by
  simp [payload]

/-- A valid-header, non-error packet whose identity does not trigger a
seal (fresh identity, matching identity, or empty accumulation) appends
exactly its payload when the buffer has room, sealing iff its
end-of-frame bit is set. -/
lemma read_step_append (bufsz : ℕ) (pkt acc : List ℕ) (fid : Option ℕ)
    (hv : validHeader pkt) (he : errBit pkt = false)
    (hfid : fid = none ∨ fid = some (fidBit pkt) ∨ acc = [])
    (hroom : acc.length + (pkt.length - hlen pkt) ≤ bufsz) :
    read_step bufsz pkt acc fid =
      if eofBit pkt then .seal (acc ++ payload pkt)
      else .next (acc ++ payload pkt) (some (fidBit pkt)) := by
  obtain ⟨hv1, hv2⟩ := hv
  have h2 : ¬ pkt.length < 2 := by omega
  have hinv : ¬ (hlen pkt < 2 ∨ pkt.length < hlen pkt) := by omega
  have hflip : flipSeal fid (fidBit pkt) acc.length = false := by
    rcases hfid with rfl | rfl | rfl
    · rfl
    · simp [flipSeal]
    · cases fid <;> simp [flipSeal]
  unfold read_step
  rw [if_neg h2, if_neg hinv, he, hflip]
  simp only [Bool.false_eq_true, if_false]
  have hn : (if acc.length + (pkt.length - hlen pkt) ≤ bufsz
      then pkt.length - hlen pkt else bufsz - acc.length) = pkt.length - hlen pkt :=
    if_pos hroom
  by_cases hp : 0 < pkt.length - hlen pkt
  · simp only [hn, if_pos hp]
    rw [List.take_of_length_le (by rw [length_payload])]
  · have hpay : payload pkt = [] := by
      rw [← List.length_eq_zero, length_payload]; omega
    simp [hp, hpay]

/-- A packet of length ≥ 2 whose header is invalid is copied raw,
truncated to the remaining buffer space; identity tracking is untouched. -/
lemma read_step_invalid (bufsz : ℕ) (pkt acc : List ℕ) (fid : Option ℕ)
    (h2 : 2 ≤ pkt.length) (hinv : ¬ validHeader pkt) :
    read_step bufsz pkt acc fid =
      .next (acc ++ pkt.take (if acc.length + pkt.length ≤ bufsz
                              then pkt.length else bufsz - acc.length)) fid := by
  have h2n : ¬ pkt.length < 2 := by omega
  have hb : hlen pkt < 2 ∨ pkt.length < hlen pkt := by
    unfold validHeader at hinv; omega
  unfold read_step
  rw [if_neg h2n, if_pos hb]

/-- A valid-header packet with the error bit set clears the accumulation
and resets identity tracking. -/
lemma read_step_err (bufsz : ℕ) (pkt acc : List ℕ) (fid : Option ℕ)
    (hv : validHeader pkt) (he : errBit pkt = true) :
    read_step bufsz pkt acc fid = .next [] none := by
  obtain ⟨hv1, hv2⟩ := hv
  have h2 : ¬ pkt.length < 2 := by omega
  have hinv : ¬ (hlen pkt < 2 ∨ pkt.length < hlen pkt) := by omega
  unfold read_step
  rw [if_neg h2, if_neg hinv, he]
  simp

/-- Core reassembly lemma: over a stream of valid-header, error-free
packets that all carry the same frame-identity bit `b` and have no
end-of-frame bit except possibly on the last packet, `read_frame`'s loop
extends the accumulation by exactly the concatenation of the payloads,
provided the total fits the buffer. -/
lemma readFrameS_concat (bufsz b : ℕ) (pkts : List (List ℕ)) :
    ∀ (acc : List ℕ) (fid : Option ℕ),
      (∀ p ∈ pkts, validHeader p) →
      (∀ p ∈ pkts, errBit p = false) →
      (∀ p ∈ pkts, fidBit p = b) →
      (∀ p ∈ pkts.dropLast, eofBit p = false) →
      (fid = none ∨ fid = some b) →
      acc.length + ((pkts.map payload).flatten).length ≤ bufsz →
      (readFrameS bufsz pkts acc fid).1 = acc ++ (pkts.map payload).flatten := by
  induction pkts with
  | nil => intro acc fid _ _ _ _ _ _; simp [readFrameS]
  | cons p rest ih =>
    intro acc fid hv he hf heof hfid hsz
    simp only [List.map_cons, List.flatten_cons, List.length_append] at hsz ⊢
    rw [readFrameS_cons]
    by_cases hfull : bufsz ≤ acc.length
    · have hjp : (payload p).length = 0 := by omega
      have hjr : ((rest.map payload).flatten).length = 0 := by omega
      rw [if_pos hfull]
      rw [List.length_eq_zero] at hjp hjr
      simp [hjp, hjr]
    · rw [if_neg hfull]
      have hvp := hv p (by simp)
      have hroom : acc.length + (p.length - hlen p) ≤ bufsz := by
        have := length_payload p
        omega
      have hfid2 : fid = none ∨ fid = some (fidBit p) ∨ acc = [] := by
        rcases hfid with rfl | rfl
        · exact Or.inl rfl
        · exact Or.inr (Or.inl (by rw [hf p (by simp)]))
      rw [read_step_append bufsz p acc fid hvp (he p (by simp)) hfid2 hroom]
      by_cases heofp : eofBit p = true
      · rw [if_pos heofp]
        cases rest with
        | nil => simp
        | cons q t =>
          exfalso
          have : eofBit p = false := heof p (by simp [List.dropLast])
          rw [this] at heofp; exact Bool.false_ne_true heofp
      · rw [if_neg heofp]
        rw [ih (acc ++ payload p) (some (fidBit p))
          (fun q hq => hv q (by simp [hq]))
          (fun q hq => he q (by simp [hq]))
          (fun q hq => hf q (by simp [hq]))
          (fun q hq => by
            apply heof
            cases t : rest with
            | nil => rw [t] at hq; simp at hq
            | cons r s => rw [t] at hq; simp [List.dropLast, hq])
          (Or.inr (by rw [hf p (by simp)]))
          (by simp only [List.length_append]; have := length_payload p; omega)]
        simp


/-- C1: for a packet stream in which every packet has a valid header
(`2 ≤ header_length ≤ packet length`), no error bit, the same
frame-identity bit `b`, and no end-of-frame bit except possibly on the
last packet, the frame returned by `read_frame` is exactly the
concatenation of the packets' payload bytes (each packet's bytes after
its header), provided the total payload fits the 1 MiB ceiling. -/
theorem read_frame_concat (pkts : List (List ℕ)) (b : ℕ)
    (hvalid : ∀ p ∈ pkts, validHeader p)
    (herr : ∀ p ∈ pkts, errBit p = false)
    (hfid : ∀ p ∈ pkts, fidBit p = b)
    (heof : ∀ p ∈ pkts.dropLast, eofBit p = false)
    (hsize : ((pkts.map payload).flatten).length ≤ MAX_FRAME_SIZE) :
    read_frame pkts = (pkts.map payload).flatten := by
  have h := readFrameS_concat MAX_FRAME_SIZE b pkts [] none hvalid herr hfid heof
    (Or.inl rfl) (by simpa using hsize)
  simpa [read_frame] using h

/-- C1 witness: three packets, each with header length 2 and 50 payload
bytes, identity bit 0, only the last end-of-frame-flagged, yield exactly
one emitted 150-byte frame (the concatenation of the three payloads). -/
theorem read_frame_concat_witness :
    read_frame [2 :: 0 :: List.replicate 50 7, 2 :: 0 :: List.replicate 50 8,
                2 :: 2 :: List.replicate 50 9] =
      (([2 :: 0 :: List.replicate 50 7, 2 :: 0 :: List.replicate 50 8,
         2 :: 2 :: List.replicate 50 9].map payload).flatten) ∧
    (([2 :: 0 :: List.replicate 50 7, 2 :: 0 :: List.replicate 50 8,
       2 :: 2 :: (List.replicate 50 9 : List ℕ)].map payload).flatten).length = 150 :=
  ⟨read_frame_concat _ 0 (by decide) (by decide) (by decide) (by decide) (by decide),
   by decide⟩

/-- A valid-header, non-error packet whose identity bit differs from the
tracked identity, arriving while the accumulation is nonempty, seals the
previous accumulation: `read_frame` returns it unchanged (the flagged
packet's own payload is not appended). -/
lemma read_step_flip (bufsz : ℕ) (pkt acc : List ℕ) (f : ℕ)
    (hv : validHeader pkt) (he : errBit pkt = false)
    (hne : fidBit pkt ≠ f) (hacc : 0 < acc.length) :
    read_step bufsz pkt acc (some f) = .seal acc := by
  obtain ⟨hv1, hv2⟩ := hv
  have hfs : flipSeal (some f) (fidBit pkt) acc.length = true := by
    simp [flipSeal, hne, hacc]
  unfold read_step
  rw [if_neg (show ¬ pkt.length < 2 by omega),
      if_neg (show ¬ (hlen pkt < 2 ∨ pkt.length < hlen pkt) by omega), he]
  simp only [Bool.false_eq_true, if_false, hfs, if_true]

/-- C2 counterexample: packets `[2,0,1]` (identity 0, payload `[1]`),
`[2,1,7]` (identity 1, payload `[7]`), `[2,3,9]` (identity 1, EOF,
payload `[9]`).  The first `read_frame` call seals and returns `[1]` at
the identity flip, but the flipping packet has already been consumed
from the stream; the next call returns `[9]`.  Payload byte `7` of the
identity-flipping packet appears in neither frame: it is lost, contrary
to the claim that the flipping packet's payload starts the next
accumulation. -/
theorem read_frame_flip_payload_lost :
    (readFrameS MAX_FRAME_SIZE [[2, 0, 1], [2, 1, 7], [2, 3, 9]] [] none).1 = [1] ∧
    (readFrameS MAX_FRAME_SIZE [[2, 0, 1], [2, 1, 7], [2, 3, 9]] [] none).2 = [[2, 3, 9]] ∧
    (readFrameS MAX_FRAME_SIZE
      (readFrameS MAX_FRAME_SIZE [[2, 0, 1], [2, 1, 7], [2, 3, 9]] [] none).2 [] none).1 = [9] ∧
    (7 : ℕ) ∉ ([1] : List ℕ) ∧ (7 : ℕ) ∉ ([9] : List ℕ) := by decide

/-- C2 (amended): when `read_frame` has accumulated a nonempty payload
from a valid-header packet and then receives a valid-header, non-error
packet whose frame-identity bit differs, it seals and returns the
previous accumulation as the completed frame; the identity-flipping
packet is consumed from the stream and its payload is discarded (it does
not start the next accumulation). -/
theorem read_frame_flip_seal (p1 p2 : List ℕ) (rest : List (List ℕ))
    (hv1 : validHeader p1) (he1 : errBit p1 = false) (hne1 : eofBit p1 = false)
    (hp1 : 0 < (payload p1).length) (hsz : (payload p1).length < MAX_FRAME_SIZE)
    (hv2 : validHeader p2) (he2 : errBit p2 = false)
    (hfid : fidBit p2 ≠ fidBit p1) :
    readFrameS MAX_FRAME_SIZE (p1 :: p2 :: rest) [] none = (payload p1, rest) := by
  have hlp := length_payload p1
  have hacc : ¬ MAX_FRAME_SIZE ≤ (payload p1).length := by omega
  rw [readFrameS_cons, if_neg (by simp [MAX_FRAME_SIZE]),
      read_step_append MAX_FRAME_SIZE p1 [] none hv1 he1 (Or.inl rfl)
        (by simp only [List.length_nil]; omega), hne1]
  simp only [Bool.false_eq_true, if_false, List.nil_append]
  rw [readFrameS_cons, if_neg hacc,
      read_step_flip MAX_FRAME_SIZE p2 (payload p1) (fidBit p1) hv2 he2 hfid hp1]

/-- C2 witness: packet `[2,0,5]` (identity 0, payload `[5]`) followed by
flip packet `[2,1,7]`: the sealed frame is `[5]` and the stream is fully
consumed. -/
theorem read_frame_flip_seal_witness :
    readFrameS MAX_FRAME_SIZE [[2, 0, 5], [2, 1, 7]] [] none = ([5], []) :=
  read_frame_flip_seal [2, 0, 5] [2, 1, 7] [] (by decide) (by decide) (by decide)
    (by decide) (by decide) (by decide) (by decide) (by decide)

/-- C3: a valid-header packet with the error bit set discards all bytes
accumulated so far and resets identity tracking to none (`fid = -1`):
the rest of the reassembly proceeds exactly as if started fresh on the
remaining stream, so the next successfully sealed frame contains zero
bytes received before the error-flagged packet. -/
theorem read_frame_error_resets (e : List ℕ) (pkts : List (List ℕ))
    (acc : List ℕ) (fid : Option ℕ)
    (hv : validHeader e) (herr : errBit e = true)
    (hacc : acc.length < MAX_FRAME_SIZE) :
    readFrameS MAX_FRAME_SIZE (e :: pkts) acc fid =
      readFrameS MAX_FRAME_SIZE pkts [] none := by
  rw [readFrameS_cons, if_neg (by omega),
      read_step_err MAX_FRAME_SIZE e acc fid hv herr]

/-- C3 witness: error packet `[2,64]` arriving with `[1,2,3]` already
accumulated under identity 0; the stream then delivers `[2,2,9]` (EOF,
payload `[9]`): the sealed frame is `[9]`, containing none of the
pre-error bytes. -/
theorem read_frame_error_resets_witness :
    readFrameS MAX_FRAME_SIZE [[2, 64], [2, 2, 9]] [1, 2, 3] (some 0) =
      readFrameS MAX_FRAME_SIZE [[2, 2, 9]] [] none ∧
    (readFrameS MAX_FRAME_SIZE [[2, 2, 9]] [] none).1 = [9] :=
  ⟨read_frame_error_resets [2, 64] [[2, 2, 9]] [1, 2, 3] (some 0)
    (by decide) (by decide) (by decide), by decide⟩

/-- The valid-header branch of `read_step` in unreduced form: the
payload truncated to the remaining buffer space is appended (when
nonempty) and the end-of-frame bit decides sealing. -/
lemma read_step_valid_eq (bufsz : ℕ) (pkt acc : List ℕ) (fid : Option ℕ)
    (hv : validHeader pkt) (he : errBit pkt = false)
    (hfid : fid = none ∨ fid = some (fidBit pkt) ∨ acc = []) :
    read_step bufsz pkt acc fid =
      (let plen := pkt.length - hlen pkt
       let n := if acc.length + plen ≤ bufsz then plen else bufsz - acc.length
       let acc2 := if 0 < plen then acc ++ (payload pkt).take n else acc
       if eofBit pkt then .seal acc2 else .next acc2 (some (fidBit pkt))) := by
  obtain ⟨hv1, hv2⟩ := hv
  have hflip : flipSeal fid (fidBit pkt) acc.length = false := by
    rcases hfid with rfl | rfl | rfl
    · rfl
    · simp [flipSeal]
    · cases fid <;> simp [flipSeal]
  unfold read_step
  rw [if_neg (show ¬ pkt.length < 2 by omega),
      if_neg (show ¬ (hlen pkt < 2 ∨ pkt.length < hlen pkt) by omega), he, hflip]
  simp only [Bool.false_eq_true, if_false]

/-- Whether sealed by the end-of-frame bit or continued, a valid-header
non-error non-flip packet leaves the accumulation extended by its
payload truncated to the remaining buffer space. -/
lemma bytes_read_step_valid (bufsz : ℕ) (pkt acc : List ℕ) (fid : Option ℕ)
    (hv : validHeader pkt) (he : errBit pkt = false)
    (hfid : fid = none ∨ fid = some (fidBit pkt) ∨ acc = []) :
    Step.bytes (read_step bufsz pkt acc fid) =
      if 0 < pkt.length - hlen pkt
      then acc ++ (payload pkt).take
        (if acc.length + (pkt.length - hlen pkt) ≤ bufsz
         then pkt.length - hlen pkt else bufsz - acc.length)
      else acc := by
  rw [read_step_valid_eq bufsz pkt acc fid hv he hfid]
  cases eofBit pkt <;> simp [Step.bytes]

/-- C4 counterexample: the packet `[5]` has no valid header
(`header_length = 5` exceeds its length 1), yet it is not copied
verbatim into the accumulation: packets shorter than 2 bytes are skipped
outright by `read_frame` (`if (xferred < 2) continue`), so it
contributes nothing, and the subsequent end-of-frame packet `[2,2,9]`
yields the frame `[9]` rather than `[5,9]`. -/
theorem invalid_header_not_copied_cex :
    ¬ validHeader [5] ∧
    read_step MAX_FRAME_SIZE [5] [9] none = .next [9] none ∧
    Step.bytes (read_step MAX_FRAME_SIZE [5] [9] none) ≠ [9] ++ [5] ∧
    read_frame [[5], [2, 2, 9]] = [9] := by decide

/-- C4 (amended): for a non-error packet that does not trigger an
identity-flip seal: if its header is valid, the bytes it contributes to
the accumulation are exactly the `packet length − header_length` bytes
following the header whenever they fit the 1 MiB ceiling, and never
more than `packet length − header_length` in any case; if its header is
invalid and the packet is at least 2 bytes long, the whole packet is
copied verbatim (when it fits the ceiling); packets shorter than
2 bytes are skipped and contribute nothing. -/
theorem header_payload_rule (pkt acc : List ℕ) (fid : Option ℕ)
    (herr : errBit pkt = false)
    (hfid : fid = none ∨ fid = some (fidBit pkt) ∨ acc = []) :
    (validHeader pkt →
      (Step.bytes (read_step MAX_FRAME_SIZE pkt acc fid)).length ≤
          acc.length + (pkt.length - hlen pkt) ∧
        (acc.length + (pkt.length - hlen pkt) ≤ MAX_FRAME_SIZE →
          Step.bytes (read_step MAX_FRAME_SIZE pkt acc fid) = acc ++ payload pkt) ∧
        (payload pkt).length = pkt.length - hlen pkt) ∧
    (¬ validHeader pkt → 2 ≤ pkt.length → acc.length + pkt.length ≤ MAX_FRAME_SIZE →
      Step.bytes (read_step MAX_FRAME_SIZE pkt acc fid) = acc ++ pkt) ∧
    (pkt.length < 2 → Step.bytes (read_step MAX_FRAME_SIZE pkt acc fid) = acc) := by
  refine ⟨fun hv => ⟨?_, fun hroom => ?_, length_payload pkt⟩, fun hinv h2 hroom => ?_, fun h2 => ?_⟩
  · rw [bytes_read_step_valid MAX_FRAME_SIZE pkt acc fid hv herr hfid]
    by_cases hp : 0 < pkt.length - hlen pkt
    · rw [if_pos hp]
      simp only [List.length_append, List.length_take, length_payload]
      omega
    · rw [if_neg hp]; omega
  · rw [read_step_append MAX_FRAME_SIZE pkt acc fid hv herr hfid hroom]
    cases eofBit pkt <;> simp [Step.bytes]
  · rw [read_step_invalid MAX_FRAME_SIZE pkt acc fid h2 hinv, if_pos hroom]
    simp [Step.bytes, List.take_of_length_le (le_refl pkt.length)]
  · unfold read_step
    rw [if_pos h2]
    rfl

/-- C4 witness: packet `[2,0,5]` with accumulation `[1]` and fresh
identity contributes exactly its payload `[5]`. -/
theorem header_payload_rule_witness :
    errBit [2, 0, 5] = false ∧
    Step.bytes (read_step MAX_FRAME_SIZE [2, 0, 5] [1] none) = [1] ++ payload [2, 0, 5] :=
  ⟨by decide,
   ((header_payload_rule [2, 0, 5] [1] none (by decide) (Or.inl rfl)).1
     (by decide)).2.1 (by decide)⟩

/-- The metadata-presence test of `strip_meta_header`
(`ir_viewer.c:217-218`): frame longer than 12 bytes whose bytes at
offsets 1, 2, 3 are `0x00`, `0xE8`, `0x03`. -/
def metaPresent (pix : List ℕ) : Bool :=
  decide (12 < pix.length) && (pix.getD 1 0 == 0x00) &&
    (pix.getD 2 0 == 0xe8) && (pix.getD 3 0 == 0x03)

/-- `strip_meta_header` (`ir_viewer.c:215-224`): if the Tobii 10-byte
metadata signature is present, advance the view past the first 10 bytes
and report 1, else leave the view unchanged and report 0. -/
def strip_meta_header (pix : List ℕ) : Bool × List ℕ :=
  if metaPresent pix then (true, pix.drop 10) else (false, pix)

/-- C5: the metadata stripper removes exactly 10 leading bytes and
reports metadata present when the length exceeds 12 and byte 1 is
`0x00`, byte 2 is `0xE8` and byte 3 is `0x03`, and removes 0 bytes
otherwise; the length difference is always 10 or 0 accordingly, and the
output is a view of the same buffer (the identical list, or its suffix
starting at offset 10) — the bytes themselves are never rewritten. -/
theorem strip_meta_spec (pix : List ℕ) :
    strip_meta_header pix =
      (metaPresent pix, if metaPresent pix then pix.drop 10 else pix) ∧
    (pix.length - (strip_meta_header pix).2.length =
      if metaPresent pix then 10 else 0) ∧
    ((strip_meta_header pix).2 = pix.drop 10 ∨ (strip_meta_header pix).2 = pix) ∧
    (metaPresent pix = true ↔ 12 < pix.length ∧ pix.getD 1 0 = 0x00 ∧
      pix.getD 2 0 = 0xe8 ∧ pix.getD 3 0 = 0x03) := by
  by_cases hm : metaPresent pix = true
  · have hparts := hm
    unfold metaPresent at hparts
    simp only [Bool.and_eq_true, decide_eq_true_eq, beq_iff_eq] at hparts
    refine ⟨?_, ?_, ?_, ?_⟩
    · rw [strip_meta_header, if_pos hm, hm]
      simp
    · simp only [strip_meta_header, if_pos hm, hm, if_true, List.length_drop]
      have h13 : 12 < pix.length := hparts.1.1.1
      omega
    · rw [strip_meta_header, if_pos hm]
      exact Or.inl rfl
    · exact ⟨fun _ => ⟨hparts.1.1.1, hparts.1.1.2, hparts.1.2, hparts.2⟩, fun _ => hm⟩
  · have hm2 : metaPresent pix = false := by
      cases h : metaPresent pix
      · rfl
      · exact absurd h hm
    refine ⟨?_, ?_, ?_, ?_⟩
    · rw [strip_meta_header, if_neg hm, hm2]
      simp
    · simp only [strip_meta_header, if_neg hm, hm2]
      simp
    · rw [strip_meta_header, if_neg hm]
      exact Or.inr rfl
    · constructor
      · intro h; exact absurd h hm
      · intro ⟨h1, h2, h3, h4⟩
        exfalso
        apply hm
        unfold metaPresent
        rw [h2, h3, h4]
        simp [h1]

/-- `size_tolerance` from `main` (`int size_tolerance = 20`), never
reassigned: percent tolerance of the size-band gate. -/
def size_tolerance : ℕ := 20

/-- The size-band gate of the main loop (`ir_viewer.c:578-585`):
with frame-hold enabled and `locked_size > 0`, a frame of byte length
`pixlen` is rejected (skip counter `Z`) when
`pixlen < locked_size*(100-20)/100` or `pixlen > locked_size*(100+20)/100`
in integer arithmetic.  Returns `true` when the frame is rejected. -/
def size_band_reject (locked_size pixlen : ℕ) : Bool :=
  decide (pixlen < locked_size * (100 - size_tolerance) / 100) ||
    decide (locked_size * (100 + size_tolerance) / 100 < pixlen)

/-- C6: with a size lock of 1000 bytes at the fixed 20% tolerance, the
size-band gate accepts lengths 800 and 1200 (boundaries inclusive) and
rejects 799 and 1201; in general, for any locked size `L > 0`, a frame
is rejected exactly when its length is outside
`[L*(100-20)/100, L*(100+20)/100]` in integer arithmetic. -/
theorem size_band_spec (L n : ℕ) (hL : 0 < L) :
    (size_band_reject L n = true ↔ n < L * 80 / 100 ∨ L * 120 / 100 < n) ∧
    size_band_reject 1000 800 = false ∧ size_band_reject 1000 1200 = false ∧
    size_band_reject 1000 799 = true ∧ size_band_reject 1000 1201 = true := by
  refine ⟨?_, by decide, by decide, by decide, by decide⟩
  simp [size_band_reject, size_tolerance]

/-- C6 witness: at lock 1000 (which is positive), length 800 passes and
799 is rejected. -/
theorem size_band_spec_witness :
    (0 : ℕ) < 1000 ∧ size_band_reject 1000 800 = false ∧
      size_band_reject 1000 799 = true :=
  ⟨by decide, (size_band_spec 1000 800 (by decide)).2.1,
    (size_band_spec 1000 799 (by decide)).2.2.2.1⟩

/-- `abs((int)p[i] - (int)p[i-1])` on byte values, in ℕ. -/
def byteDiff (a b : ℕ) : ℕ := max a b - min a b

/-- Sum of absolute differences of adjacent elements of a list
(the loop of `neighbor_diff`). -/
def adjSum (l : List ℕ) : ℕ := (l.zipWith byteDiff l.tail).sum

/-- `check` from `neighbor_diff`: the scan is bounded to the first
`min(n, 4000)` bytes (`check = (n < 4000) ? n : 4000`). -/
def check (n : ℕ) : ℕ := if n < 4000 then n else 4000

/-- `neighbor_diff` (`ir_viewer.c:203-211`): average absolute
difference between adjacent bytes over the first `check` bytes; 0 for
inputs shorter than 2 bytes.  The C `double` quotient is modelled in ℚ
(numerator ≤ 255·3999 and denominator are exact in `double`, and every
property proved about it is insensitive to the final rounding). -/
def neighbor_diff (p : List ℕ) : ℚ :=
  if p.length < 2 then 0
  else (adjSum (p.take (check p.length)) : ℚ) / ((check p.length - 1 : ℕ) : ℚ)

/-- The stripe-detection label of the main loop (`ir_viewer.c:569-570`):
`is_interleaved = (nd > 25.0)`. -/
def is_interleaved (p : List ℕ) : Bool := decide (25 < neighbor_diff p)

lemma adjSum_cons_cons (a b : ℕ) (t : List ℕ) :
    adjSum (a :: b :: t) = byteDiff a b + adjSum (b :: t) := rfl

lemma adjSum_replicate : ∀ (m c : ℕ), adjSum (List.replicate m c) = 0
  | 0, _ => rfl
  | 1, _ => rfl
  | m + 2, c => by
    have ih := adjSum_replicate (m + 1) c
    have h : List.replicate (m + 2) c = c :: List.replicate (m + 1) c := rfl
    rw [h, show (List.replicate (m + 1) c : List ℕ) = c :: List.replicate m c from rfl,
      adjSum_cons_cons, ← show (List.replicate (m + 1) c : List ℕ) = c :: List.replicate m c from rfl,
      ih, byteDiff]
    simp

/-- An alternating `0x00, 0xFF, 0x00, 0xFF, ...` byte sequence of
length `n` (starting with `0xFF` when `b` is set). -/
def altFrom : Bool → ℕ → List ℕ
  | _, 0 => []
  | b, n + 1 => (if b then 255 else 0) :: altFrom (!b) n

lemma length_altFrom : ∀ (b : Bool) (n : ℕ), (altFrom b n).length = n
  | _, 0 => rfl
  | b, n + 1 => by simp [altFrom, length_altFrom (!b) n]

lemma take_altFrom : ∀ (k n : ℕ) (b : Bool), (altFrom b n).take k = altFrom b (min k n)
  | 0, n, b => by simp [altFrom]
  | k + 1, 0, b => by simp [altFrom]
  | k + 1, n + 1, b => by
    show ((if b then 255 else 0) :: altFrom (!b) n).take (k + 1) = altFrom b (min (k + 1) (n + 1))
    rw [List.take_succ_cons, take_altFrom k n (!b), Nat.succ_min_succ]
    rfl

lemma adjSum_altFrom : ∀ (n : ℕ) (b : Bool), adjSum (altFrom b n) = 255 * (n - 1)
  | 0, _ => rfl
  | 1, b => by cases b <;> rfl
  | n + 2, b => by
    have ih := adjSum_altFrom (n + 1) (!b)
    have h2 : altFrom (!b) (n + 1) = (if !b then 255 else 0) :: altFrom (!(!b)) n := rfl
    rw [show altFrom b (n + 2) = (if b then 255 else 0) :: altFrom (!b) (n + 1) from rfl,
      h2, adjSum_cons_cons, ← h2, ih]
    cases b <;> simp [byteDiff] <;> omega

/-- C7: `neighbor_diff`, computed over the first `min(n, 4000)` bytes,
is 0 for every constant-valued input, which is therefore never labeled
interleaved; it is 255 for every alternating `0x00,0xFF` input of
length ≥ 2, which is therefore always labeled interleaved; and in
general a frame is labeled interleaved exactly when its `neighbor_diff`
exceeds 25. -/
theorem classifier_spec (p : List ℕ) :
    (∀ n c, p = List.replicate n c → neighbor_diff p = 0 ∧ is_interleaved p = false) ∧
    (∀ n, 2 ≤ n → p = altFrom false n → neighbor_diff p = 255 ∧ is_interleaved p = true) ∧
    (is_interleaved p = true ↔ 25 < neighbor_diff p) := by
  refine ⟨?_, ?_, by simp [is_interleaved]⟩
  · rintro n c rfl
    have hnd : neighbor_diff (List.replicate n c) = 0 := by
      unfold neighbor_diff
      by_cases h : (List.replicate n c).length < 2
      · rw [if_pos h]
      · rw [if_neg h, List.take_replicate, adjSum_replicate]
        simp
    exact ⟨hnd, by simp [is_interleaved, hnd]⟩
  · rintro n h2 rfl
    have hlen : (altFrom false n).length = n := length_altFrom false n
    have hc : check n ≤ n := by unfold check; split <;> omega
    have hc2 : 2 ≤ check n := by unfold check; split <;> omega
    have hnd : neighbor_diff (altFrom false n) = 255 := by
      unfold neighbor_diff
      rw [if_neg (by omega), hlen, take_altFrom, min_eq_left hc, adjSum_altFrom]
      have hne : ((check n - 1 : ℕ) : ℚ) ≠ 0 := by
        rw [Nat.cast_ne_zero]
        omega
      push_cast
      rw [mul_div_assoc, div_self hne, mul_one]
    refine ⟨hnd, by rw [is_interleaved, hnd]; norm_num⟩

/-- C7 witness: the two-byte constant frame `[5,5]` has
`neighbor_diff 0` and is not labeled interleaved; the two-byte
alternating frame `[0,255]` has `neighbor_diff 255` and is labeled
interleaved. -/
theorem classifier_spec_witness :
    neighbor_diff (List.replicate 2 (5 : ℕ)) = 0 ∧
    is_interleaved (List.replicate 2 (5 : ℕ)) = false ∧
    (2 : ℕ) ≤ 2 ∧
    neighbor_diff (altFrom false 2) = 255 ∧
    is_interleaved (altFrom false 2) = true :=
  ⟨((classifier_spec (List.replicate 2 5)).1 2 5 rfl).1,
   ((classifier_spec (List.replicate 2 5)).1 2 5 rfl).2,
   le_refl 2,
   ((classifier_spec (altFrom false 2)).2.1 2 (le_refl 2) rfl).1,
   ((classifier_spec (altFrom false 2)).2.1 2 (le_refl 2) rfl).2⟩

/-- The `SDLK_b` handler (`ir_viewer.c:526-528`), the only code that
modifies the brightness floor:
`bright_thresh = (bright_thresh > 2) ? bright_thresh - 5 : 0`. -/
def lower_brightness (t : ℤ) : ℤ := if 2 < t then t - 5 else 0

/-- The values the brightness floor can hold at runtime: the default 15
(`int bright_thresh = 15`) and everything reachable from it through the
lower-brightness action. -/
inductive ReachableFloor : ℤ → Prop
  | init : ReachableFloor 15
  | step {t : ℤ} : ReachableFloor t → ReachableFloor (lower_brightness t)

lemma reachableFloor_values {t : ℤ} (h : ReachableFloor t) :
    t = 15 ∨ t = 10 ∨ t = 5 ∨ t = 0 := by
  induction h with
  | init => exact Or.inl rfl
  | step _ ih => rcases ih with rfl | rfl | rfl | rfl <;> norm_num [lower_brightness]

/-- C9: for every value the brightness floor can hold, one
lower-brightness action yields exactly `max (floor - 5) 0`: it
decrements by 5 and never goes below 0. -/
theorem brightness_floor_spec (t : ℤ) (h : ReachableFloor t) :
    lower_brightness t = max (t - 5) 0 ∧ 0 ≤ lower_brightness t := by
  rcases reachableFloor_values h with rfl | rfl | rfl | rfl <;>
    exact ⟨by decide, by decide⟩

/-- C9 witness: from the default floor 15, one action yields 10. -/
theorem brightness_floor_spec_witness :
    ReachableFloor 15 ∧ lower_brightness 15 = max (15 - 5) 0 ∧
      0 ≤ lower_brightness 15 :=
  ⟨.init, (brightness_floor_spec 15 .init).1, (brightness_floor_spec 15 .init).2⟩

/-- `qn`, the divisor of the brightness gate (`ir_viewer.c:589`):
`(pixlen < 4000) ? pixlen : 4000`. -/
def qn (pixlen : ℕ) : ℕ := if pixlen < 4000 then pixlen else 4000

/-- The stages of the main loop that run before the stripe, size-band
and brightness gates, for one frame `got` returned by `read_frame`
(`ir_viewer.c:539-566`): the minimum-size gate (frames under 100 bytes
discarded), the metadata strip, and the fragment-accumulation gate
(when enabled and a positive negotiated target size is known).  Returns
the frame handed to the remaining gates this cycle (`none` when the
frame was discarded or only accumulated) and the new accumulation
buffer contents (`accum_buf[0..accum_off)`).  The stripe and size-band
gates only reject frames, so any frame reaching the brightness gate is
exactly a `some` output of this function. -/
def frame_gate (got : List ℕ) (accumulate : Bool) (negotiated : ℕ)
    (accum : List ℕ) : Option (List ℕ) × List ℕ :=
  if got.length < 100 then (none, accum)
  else
    let pix := (strip_meta_header got).2
    if accumulate && decide (0 < negotiated) then
      let space := negotiated - accum.length
      let copy := min pix.length space
      let accum2 := accum ++ pix.take copy
      if accum2.length < negotiated then (none, accum2)
      else (some accum2, [])
    else (some pix, accum)

/-- C10: every division on the classification and brightness path is
guarded.  `neighbor_diff` returns 0 without dividing for inputs shorter
than 2 bytes and otherwise divides by `check - 1 ≥ 1`; and the
brightness-gate divisor `qn = min(pixlen, 4000)` is at least 1 for
every frame that reaches that gate, because the minimum-size gate
discards frames under 100 bytes (after the 10-byte metadata strip this
leaves at least 90 bytes) and the accumulation gate emits a frame only
once the positive negotiated target has been reached.  The accumulation
invariant `accum_off ≤ negotiated` (true at start, where `accum_off`
is 0, and re-established by the `A` toggle) is preserved by every
cycle. -/
theorem division_guards :
    (∀ p : List ℕ, p.length < 2 → neighbor_diff p = 0) ∧
    (∀ p : List ℕ, 2 ≤ p.length → 1 ≤ check p.length - 1) ∧
    (∀ (got accum : List ℕ) (accumulate : Bool) (negotiated : ℕ),
      accum.length ≤ negotiated →
      (∀ pix, (frame_gate got accumulate negotiated accum).1 = some pix →
        1 ≤ qn pix.length) ∧
      (frame_gate got accumulate negotiated accum).2.length ≤ negotiated) ∧
    (∀ (got accum : List ℕ) (negotiated : ℕ) (pix : List ℕ),
      (frame_gate got false negotiated accum).1 = some pix →
      90 ≤ pix.length) := by
  have hstriplen : ∀ got : List ℕ, ¬ got.length < 100 →
      90 ≤ (strip_meta_header got).2.length := by
    intro got hmin
    rcases (strip_meta_spec got).2.2.1 with h | h <;> rw [h]
    · simp only [List.length_drop]
      omega
    · omega
  refine ⟨?_, ?_, ?_, ?_⟩
  · intro p h
    unfold neighbor_diff
    rw [if_pos h]
  · intro p h
    unfold check
    split <;> omega
  · intro got accum accumulate negotiated hinv
    unfold frame_gate
    by_cases hmin : got.length < 100
    · rw [if_pos hmin]
      exact ⟨fun pix h => Option.noConfusion h, hinv⟩
    · rw [if_neg hmin]
      by_cases hacc : (accumulate && decide (0 < negotiated)) = true
      · simp only [hacc, if_true]
        have hpos : 0 < negotiated := by
          simp only [Bool.and_eq_true, decide_eq_true_eq] at hacc
          exact hacc.2
        by_cases hfull : (accum ++ ((strip_meta_header got).2).take
            (min ((strip_meta_header got).2).length (negotiated - accum.length))).length
            < negotiated
        · rw [if_pos hfull]
          refine ⟨fun pix h => Option.noConfusion h, ?_⟩
          show (accum ++ ((strip_meta_header got).2).take
              (min ((strip_meta_header got).2).length (negotiated - accum.length))).length
            ≤ negotiated
          simp only [List.length_append, List.length_take]
          omega
        · rw [if_neg hfull]
          refine ⟨fun pix h => ?_, by simp⟩
          have hpix : pix = accum ++ ((strip_meta_header got).2).take
              (min ((strip_meta_header got).2).length (negotiated - accum.length)) := by
            simpa using h.symm
          rw [hpix]
          unfold qn
          split <;> omega
      · simp only [hacc, if_false, Bool.false_eq_true]
        refine ⟨fun pix h => ?_, hinv⟩
        have hpix : pix = (strip_meta_header got).2 := by simpa using h.symm
        have h90 := hstriplen got hmin
        rw [hpix]
        unfold qn
        split <;> omega
  · intro got accum negotiated pix h
    unfold frame_gate at h
    by_cases hmin : got.length < 100
    · rw [if_pos hmin] at h
      simp at h
    · rw [if_neg hmin] at h
      simp only [Bool.false_and, if_false, Bool.false_eq_true] at h
      have hpix : pix = (strip_meta_header got).2 := by simpa using h.symm
      rw [hpix]
      exact hstriplen got hmin

/-- C10 witness: a 100-byte frame of value 1 (no metadata signature)
passes the minimum-size gate untouched with accumulation off; its
brightness divisor is `min(100, 4000) = 100 ≥ 1`. -/
theorem division_guards_witness :
    ([] : List ℕ).length ≤ 0 ∧
    (frame_gate (List.replicate 100 1) false 0 []).1 = some (List.replicate 100 1) ∧
    1 ≤ qn (List.replicate 100 (1 : ℕ)).length ∧
    (2 : ℕ) ≤ (List.replicate 100 (1 : ℕ)).length ∧
    1 ≤ check (List.replicate 100 (1 : ℕ)).length - 1 :=
  ⟨by decide, by decide,
   ((division_guards.2.2.1 (List.replicate 100 1) [] false 0 (by decide)).1
     (List.replicate 100 1) (by decide)),
   by decide,
   division_guards.2.1 (List.replicate 100 1) (by decide)⟩

/-- The clamp of `render_frame`:
`(s < 0) ? 0 : (s > 255) ? 255 : (uint8_t)s`. -/
def clamp255 (s : ℤ) : ℕ := if s < 0 then 0 else if 255 < s then 255 else s.toNat

/-- ARGB pixel word `0xFF000000 | v << 16 | v << 8 | v`. -/
def argb (v : ℕ) : ℕ := 0xFF000000 ||| (v <<< 16) ||| (v <<< 8) ||| v

/-- `range = (mx - mn > 0) ? (mx - mn) : 1` in C `int` arithmetic. -/
def stretchRange (mn mx : ℕ) : ℤ :=
  if 0 < (mx : ℤ) - (mn : ℤ) then (mx : ℤ) - (mn : ℤ) else 1

/-- One contrast-stretched intensity: `(b - mn) * 255 / range`, clamped
to a `uint8_t`. -/
def stretchPx (b mn : ℕ) (range : ℤ) : ℕ :=
  clamp255 (((b : ℤ) - (mn : ℤ)) * 255 / range)

/-- The source value scanned, and written at destination index `i`, by
decode mode `mode` (`MODE_RAW = 0`, `MODE_DEINT_EVEN = 1`,
`MODE_DEINT_ODD = 2`, `MODE_16BIT_LE = 3`; the `start + i*2` indices
and the little-endian 16-bit pairing are those of `render_frame`). -/
def mode_sample (src : List ℕ) (mode i : ℕ) : ℕ :=
  match mode with
  | 0 => src.getD i 0
  | 1 => src.getD (0 + i * 2) 0
  | 2 => src.getD (1 + i * 2) 0
  | 3 => src.getD (i * 2) 0 ||| (src.getD (i * 2 + 1) 0 <<< 8)
  | _ => 0

/-- The per-mode decoded pixel count (`limit`, `limit16` in
`render_frame`): source pixels available, capped at `npix`. -/
def mode_limit (src : List ℕ) (npix mode : ℕ) : ℕ :=
  match mode with
  | 0 => min src.length npix
  | 1 => min ((src.length - 0 + 1) / 2) npix
  | 2 => min ((src.length - 1 + 1) / 2) npix
  | 3 => min (src.length / 2) npix
  | _ => 0

/-- Initial value of the running minimum (`mn = 255`; `mn16 = 65535`). -/
def mode_init_min (mode : ℕ) : ℕ := if mode = 3 then 65535 else 255

/-- The values visited by the min/max contrast scan (the write loop
revisits exactly the same values). -/
def mode_samples (src : List ℕ) (npix mode : ℕ) : List ℕ :=
  (List.range (mode_limit src npix mode)).map (mode_sample src mode)

/-- `mn`/`mn16` after the scan loop. -/
def mode_mn (src : List ℕ) (npix mode : ℕ) : ℕ :=
  (mode_samples src npix mode).foldl min (mode_init_min mode)

/-- `mx`/`mx16` after the scan loop. -/
def mode_mx (src : List ℕ) (npix mode : ℕ) : ℕ :=
  (mode_samples src npix mode).foldl max 0

/-- The contrast-stretch range used by mode `mode`. -/
def mode_range (src : List ℕ) (npix mode : ℕ) : ℤ :=
  stretchRange (mode_mn src npix mode) (mode_mx src npix mode)

/-- The `(destination index, ARGB word)` stores `render_frame` performs
after its clearing `memset`: none for a source shorter than 2 bytes,
else one store per decoded pixel `i < limit`. -/
def decode_writes (src : List ℕ) (npix mode : ℕ) : List (ℕ × ℕ) :=
  if src.length < 2 then []
  else (List.range (mode_limit src npix mode)).map
    (fun i => (i, argb (stretchPx (mode_sample src mode i)
      (mode_mn src npix mode) (mode_range src npix mode))))

/-- Number of pixels `render_frame` decodes. -/
def decode_count (src : List ℕ) (npix mode : ℕ) : ℕ :=
  (decode_writes src npix mode).length

/-- `render_frame` (`ir_viewer.c:232-294`): the `width*height`
destination buffer, pre-cleared to black (`memset(dst, 0, npix*4)`),
after all of the mode's stores. -/
def render_frame (src : List ℕ) (width height mode : ℕ) : List ℕ :=
  (decode_writes src (width * height) mode).foldl
    (fun d iv => d.set iv.1 iv.2) (List.replicate (width * height) 0)

lemma clamp255_le (s : ℤ) : clamp255 s ≤ 255 := by
  unfold clamp255
  split_ifs <;> omega

lemma mode_limit_le (src : List ℕ) (npix mode : ℕ) :
    mode_limit src npix mode ≤ npix := by
  rcases mode with _ | _ | _ | _ | mode <;> simp [mode_limit]

lemma length_foldl_set (ws : List (ℕ × ℕ)) : ∀ init : List ℕ,
    (ws.foldl (fun d iv => d.set iv.1 iv.2) init).length = init.length := by
  induction ws with
  | nil => intro init; rfl
  | cons w t ih =>
    intro init
    rw [List.foldl_cons, ih, List.length_set]

lemma getD_foldl_set_ne (ws : List (ℕ × ℕ)) : ∀ (init : List ℕ) (i : ℕ),
    (∀ iv ∈ ws, iv.1 ≠ i) →
    (ws.foldl (fun d iv => d.set iv.1 iv.2) init).getD i 0 = init.getD i 0 := by
  induction ws with
  | nil => intro init i _; rfl
  | cons w t ih =>
    intro init i hne
    rw [List.foldl_cons, ih _ i (fun iv hiv => hne iv (by simp [hiv]))]
    simp only [List.getD_eq_getElem?_getD]
    rw [List.getElem?_set_ne (hne w (by simp))]

lemma getD_replicate_zero (n i : ℕ) : (List.replicate n (0 : ℕ)).getD i 0 = 0 := by
  rw [List.getD_eq_getElem?_getD, List.getElem?_replicate]
  split <;> rfl

lemma getD_replicate_of_lt (n c i : ℕ) (h : i < n) :
    (List.replicate n c).getD i 0 = c := by
  rw [List.getD_eq_getElem?_getD, List.getElem?_replicate, if_pos h]
  rfl

lemma foldl_min_replicate : ∀ (k a v : ℕ),
    (List.replicate k v).foldl min a = if k = 0 then a else min a v
  | 0, _, _ => rfl
  | k + 1, a, v => by
    have ih := foldl_min_replicate k (min a v) v
    show (List.replicate k v).foldl min (min a v) = _
    rw [ih, if_neg (Nat.succ_ne_zero k)]
    by_cases hk : k = 0
    · rw [if_pos hk]
    · rw [if_neg hk, min_assoc, min_self]

lemma foldl_max_replicate : ∀ (k a v : ℕ),
    (List.replicate k v).foldl max a = if k = 0 then a else max a v
  | 0, _, _ => rfl
  | k + 1, a, v => by
    have ih := foldl_max_replicate k (max a v) v
    show (List.replicate k v).foldl max (max a v) = _
    rw [ih, if_neg (Nat.succ_ne_zero k)]
    by_cases hk : k = 0
    · rw [if_pos hk]
    · rw [if_neg hk, max_assoc, max_self]

/-- When every scanned sample has the same value `v` (bounded by the
scan's initial minimum), the contrast range degenerates and is forced
to 1. -/
lemma mode_range_const (src : List ℕ) (npix mode v : ℕ)
    (hsample : ∀ i < mode_limit src npix mode, mode_sample src mode i = v)
    (hv : v ≤ mode_init_min mode) :
    mode_range src npix mode = 1 := by
  have hrep : mode_samples src npix mode =
      List.replicate (mode_limit src npix mode) v := by
    rw [mode_samples, List.eq_replicate_iff]
    refine ⟨by simp, ?_⟩
    intro b hb
    simp only [List.mem_map, List.mem_range] at hb
    obtain ⟨i, hi, rfl⟩ := hb
    exact hsample i hi
  unfold mode_range mode_mn mode_mx
  rw [hrep, foldl_min_replicate, foldl_max_replicate]
  by_cases h0 : mode_limit src npix mode = 0
  · rw [if_pos h0, if_pos h0]
    unfold stretchRange
    rw [if_neg (by push_cast; omega)]
  · rw [if_neg h0, if_neg h0, min_eq_right hv, max_eq_right (Nat.zero_le v)]
    unfold stretchRange
    rw [if_neg (by omega)]

/-- C8: for every source byte sequence, width, height and decode mode:
every store of `render_frame` targets a destination index strictly
below `width*height` and writes an ARGB word whose intensity `v` is in
`[0,255]`; the decoded pixel count never exceeds `width*height`; the
destination keeps its `width*height` size; every pixel at or beyond the
decoded pixel count keeps the black `memset` value 0; and on
uniform-valued byte input the contrast-stretch range is forced to 1
(the division is by 1, never by zero) in every mode. -/
theorem render_frame_safe (src : List ℕ) (w h mode : ℕ) :
    (∀ iv ∈ decode_writes src (w * h) mode,
      iv.1 < w * h ∧ ∃ v, v ≤ 255 ∧ iv.2 = argb v) ∧
    decode_count src (w * h) mode ≤ w * h ∧
    (render_frame src w h mode).length = w * h ∧
    (∀ i, decode_count src (w * h) mode ≤ i →
      (render_frame src w h mode).getD i 0 = 0) ∧
    (∀ n c, 2 ≤ n → c ≤ 255 → src = List.replicate n c →
      mode_range src (w * h) mode = 1) := by
  have hmem : ∀ iv ∈ decode_writes src (w * h) mode,
      iv.1 < decode_count src (w * h) mode ∧ ∃ v, v ≤ 255 ∧ iv.2 = argb v := by
    intro iv hiv
    unfold decode_count
    unfold decode_writes at hiv ⊢
    by_cases hs : src.length < 2
    · rw [if_pos hs] at hiv
      simp at hiv
    · rw [if_neg hs] at hiv ⊢
      simp only [List.length_map, List.length_range]
      simp only [List.mem_map, List.mem_range] at hiv
      obtain ⟨i, hi, rfl⟩ := hiv
      exact ⟨hi, stretchPx _ _ _, clamp255_le _, rfl⟩
  have hcount : decode_count src (w * h) mode ≤ w * h := by
    unfold decode_count decode_writes
    by_cases hs : src.length < 2
    · rw [if_pos hs]
      simp
    · rw [if_neg hs]
      simp only [List.length_map, List.length_range]
      exact mode_limit_le src (w * h) mode
  refine ⟨fun iv hiv => ⟨lt_of_lt_of_le (hmem iv hiv).1 hcount, (hmem iv hiv).2⟩,
    hcount, ?_, ?_, ?_⟩
  · rw [render_frame, length_foldl_set, List.length_replicate]
  · intro i hi
    rw [render_frame, getD_foldl_set_ne _ _ i
      (fun iv hiv => by have := (hmem iv hiv).1; omega), getD_replicate_zero]
  · rintro n c hn hc rfl
    have hlen : (List.replicate n c).length = n := List.length_replicate n c
    rcases mode with _ | _ | _ | _ | m
    · refine mode_range_const _ _ _ c (fun i hi => ?_) (by simpa [mode_init_min] using hc)
      simp only [mode_limit, hlen] at hi
      simp only [mode_sample]
      exact getD_replicate_of_lt n c i (by omega)
    · refine mode_range_const _ _ _ c (fun i hi => ?_) (by simpa [mode_init_min] using hc)
      simp only [mode_limit, hlen] at hi
      simp only [mode_sample]
      exact getD_replicate_of_lt n c _ (by omega)
    · refine mode_range_const _ _ _ c (fun i hi => ?_) (by simpa [mode_init_min] using hc)
      simp only [mode_limit, hlen] at hi
      simp only [mode_sample]
      exact getD_replicate_of_lt n c _ (by omega)
    · refine mode_range_const _ _ _ (c ||| (c <<< 8)) (fun i hi => ?_) ?_
      · simp only [mode_limit, hlen] at hi
        simp only [mode_sample]
        rw [getD_replicate_of_lt n c _ (by omega), getD_replicate_of_lt n c _ (by omega)]
      · have h1 : c < 2 ^ 16 := by omega
        have h2 : c <<< 8 < 2 ^ 16 := by
          rw [Nat.shiftLeft_eq]
          omega
        have h3 := Nat.or_lt_two_pow h1 h2
        have h4 : mode_init_min (0 + 1 + 1 + 1) = 65535 := by decide
        rw [h4]
        omega
    · exact mode_range_const _ _ _ 0
        (fun i hi => by simp [mode_limit] at hi) (Nat.zero_le _)

/-- C8 witness: on the uniform two-byte source `[7,7]` with a 3×1
destination in raw mode, the contrast range is 1, and the pixel at
index 2 (beyond the 2 decoded pixels) is black. -/
theorem render_frame_safe_witness :
    (2 : ℕ) ≤ 2 ∧ (7 : ℕ) ≤ 255 ∧
    mode_range (List.replicate 2 (7 : ℕ)) (3 * 1) 0 = 1 ∧
    decode_count (List.replicate 2 (7 : ℕ)) (3 * 1) 0 ≤ 2 ∧
    (render_frame (List.replicate 2 (7 : ℕ)) 3 1 0).getD 2 0 = 0 :=
  ⟨le_refl 2, by omega,
   (render_frame_safe (List.replicate 2 7) 3 1 0).2.2.2.2 2 7 (le_refl 2) (by omega) rfl,
   by decide,
   (render_frame_safe (List.replicate 2 7) 3 1 0).2.2.2.1 2 (by decide)⟩

end IrViewer
